import Mathlib

/-!
Verification development for the scholarship data-cleaning pipeline
(`app_streamlit/pages/2_Data_Cleaning.py`).

The pipeline is embedded shallowly: `clean_scholarship_text` is translated
rule by rule into functions on `List Char`, the table operations
(`build_scholarship_text`, the `Apply Cleaning` branch) into functions on an
explicit frame of rows.  Each Python `re.sub` call is modelled by a scanner
implementing the leftmost, non-overlapping, greedy match semantics of the
specific pattern used by the source.
-/

namespace Scholarship

/-- Whitespace as matched by `\s` / stripped by `str.strip`, restricted to
the common ASCII fragment (Python additionally treats `\x1c`–`\x1f`,
U+0085, U+2028/U+2029 and other Unicode spaces as whitespace; the
universally quantified theorems below that depend on token or strip
behaviour therefore restrict their inputs to printable ASCII plus space
and newline, where this fragment agrees with Python exactly). -/
def isWs (c : Char) : Bool :=
  c = ' ' || c = '\t' || c = '\n' || c = '\r' || c = '\x0b' || c = '\x0c'

def isLowerAZ (c : Char) : Bool := 'a' ≤ c && c ≤ 'z'

/-- The bullet glyphs of the rule `re.sub(r"[•●▪■◆▶►▸⦿⦾]", "- ", text)`. -/
def isBullet (c : Char) : Bool :=
  c = '•' || c = '●' || c = '▪' || c = '■' || c = '◆' ||
  c = '▶' || c = '►' || c = '▸' || c = '⦿' || c = '⦾'

/-- The characters removed by `re.sub(r"[​‌‍⁠﻿]", "", text)`. -/
def isZeroWidth (c : Char) : Bool :=
  c = '​' || c = '‌' || c = '‍' || c = '⁠' || c = '﻿'

/-- Modelled from the spec: the semantics of Python's
`unicodedata.normalize("NFKD", text)` — the library itself is outside the
repository.  NFKD replaces each character by its full compatibility
decomposition and performs no composition; we model it with a finite
fragment of the Unicode decomposition table (entries taken from
UnicodeData.txt) with all other characters mapping to themselves.  The
identity default is an under-approximation of real NFKD (which also
decomposes e.g. fullwidth forms, superscripts and the remaining
precomposed letters); theorems below rely on it only for the table
entries themselves and for printable ASCII, where real NFKD is also the
identity. -/
def nfkdChar (c : Char) : List Char :=
  if c = 'é' then ['e', '́']
  else if c = 'è' then ['e', '̀']
  else if c = 'à' then ['a', '̀']
  else if c = 'ç' then ['c', '̧']
  else if c = 'ñ' then ['n', '̃']
  else if c = ' ' then [' ']
  else [c]

/-- Apply a character-to-string expansion pointwise (used for NFKD and for
the bullet rule, whose replacement `"- "` is two characters long). -/
def charExpand (f : Char → List Char) : List Char → List Char
  | [] => []
  | c :: cs => f c ++ charExpand f cs

def nfkd (l : List Char) : List Char := charExpand nfkdChar l

def zeroWidthStrip (l : List Char) : List Char := l.filter (fun c => !isZeroWidth c)

theorem dropWhile_length_le {α : Type} (p : α → Bool) (l : List α) :
    (l.dropWhile p).length ≤ l.length := by
  induction l with
  | nil => exact Nat.le_refl _
  | cons a t ih =>
    simp only [List.dropWhile]
    split
    · exact Nat.le_succ_of_le ih
    · exact Nat.le_refl _

/-- `re.sub(r"\S+@\S+", " ", text)`: a maximal non-whitespace token matches
exactly when it has an `'@'` with at least one non-whitespace character on
each side, i.e. an `'@'` strictly inside the token; the greedy match then
covers the whole token. -/
def hasInteriorAt (t : List Char) : Bool := decide ('@' ∈ (t.drop 1).dropLast)

/-- Structural worker for `emailSub`; the fuel argument (always instantiated
with the length of the list, which the recursion never exceeds) makes the
scanner reduce by iota in the kernel. -/
def emailGo : Nat → List Char → List Char
  | _, [] => []
  | 0, l => l
  | fuel + 1, c :: cs =>
    if isWs c then c :: emailGo fuel cs
    else
      (if hasInteriorAt (c :: cs.takeWhile (fun d => !isWs d)) then [' ']
       else c :: cs.takeWhile (fun d => !isWs d)) ++
        emailGo fuel (cs.dropWhile (fun d => !isWs d))

def emailSub (l : List Char) : List Char := emailGo l.length l

/-- Generic `re.sub`-style scanner: at each position try the matcher (which
returns the length of the leftmost match anchored there, always ≥ 1); on a
match emit the replacement and continue after the match, otherwise keep the
character and advance by one.  Fueled for the same reason as `emailGo`. -/
def subScanGo (m : List Char → Option Nat) (repl : List Char) : Nat → List Char → List Char
  | _, [] => []
  | 0, l => l
  | fuel + 1, c :: cs =>
    match m (c :: cs) with
    | some n => repl ++ subScanGo m repl fuel (cs.drop (n - 1))
    | none => c :: subScanGo m repl fuel cs

def subScan (m : List Char → Option Nat) (repl : List Char) (l : List Char) : List Char :=
  subScanGo m repl l.length l

/-- Character class `[\d\-\s\(\)]` of the phone-number rule. -/
def isPhoneClass (c : Char) : Bool :=
  c.isDigit || c = '-' || isWs c || c = '(' || c = ')'

/-- Greedy backtracking for `\+?\d[\d\-\s\(\)]{7,}\d`: after the leading
digit, the class consumes as much of its maximal run as possible subject to
the final `\d`; the chosen end is the last digit at class-offset ≥ 7. -/
def lastDigitIdxGe7 (run : List Char) : Option Nat :=
  ((List.range run.length).filter
    (fun i => decide (7 ≤ i) && (run.getD i ' ').isDigit)).getLast?

def phoneMatchLen (l : List Char) : Option Nat :=
  match l with
  | [] => none
  | c :: t =>
    if c = '+' then
      match t with
      | [] => none
      | d :: t' =>
        if d.isDigit then
          match lastDigitIdxGe7 (t'.takeWhile isPhoneClass) with
          | some i => some (i + 3)
          | none => none
        else none
    else if c.isDigit then
      match lastDigitIdxGe7 (t.takeWhile isPhoneClass) with
      | some i => some (i + 2)
      | none => none
    else none

def phoneSub : List Char → List Char := subScan phoneMatchLen [' ']

/-- `p.isPrefixOfList l`: decide `l.take p.length = p`. -/
def listPre (p l : List Char) : Bool := decide (l.take p.length = p)

/-- Matcher for `(https?:\/\/\S+|www\.\S+)`. -/
def urlMatchLen (l : List Char) : Option Nat :=
  if listPre "https://".data l then
    let tok := (l.drop 8).takeWhile (fun d => !isWs d)
    if 0 < tok.length then some (8 + tok.length) else none
  else if listPre "http://".data l then
    let tok := (l.drop 7).takeWhile (fun d => !isWs d)
    if 0 < tok.length then some (7 + tok.length) else none
  else if listPre "www.".data l then
    let tok := (l.drop 4).takeWhile (fun d => !isWs d)
    if 0 < tok.length then some (4 + tok.length) else none
  else none

def urlSub : List Char → List Char := subScan urlMatchLen [' ']

/-- Matcher for `<[^>]+>`: a `'<'`, then at least one non-`'>'` character,
then the first following `'>'`. -/
def htmlMatchLen (l : List Char) : Option Nat :=
  match l with
  | '<' :: t =>
    match t.findIdx? (fun c => c = '>') with
    | some i => if 1 ≤ i then some (i + 2) else none
    | none => none
  | _ => none

def htmlSub : List Char → List Char := subScan htmlMatchLen [' ']

/-- Matcher for `&[a-z]+;`: `'&'`, a maximal nonempty run of `[a-z]`, then `';'`. -/
def entityMatchLen (l : List Char) : Option Nat :=
  match l with
  | '&' :: t =>
    let run := t.takeWhile isLowerAZ
    if 0 < run.length && t.getD run.length ' ' = ';' then some (run.length + 2)
    else none
  | _ => none

def entitySub : List Char → List Char := subScan entityMatchLen [' ']

def bulletSub (l : List Char) : List Char :=
  charExpand (fun c => if isBullet c then ['-', ' '] else [c]) l

/-- `text.replace("–", "-").replace("—", "-")`. -/
def dashSub (l : List Char) : List Char :=
  l.map (fun c => if c = '–' then '-' else if c = '—' then '-' else c)

/-- `text.replace("\t", " ")`. -/
def tabSub (l : List Char) : List Char :=
  l.map (fun c => if c = '\t' then ' ' else c)

/-- `re.sub(r" {2,}", " ", text)`: collapse each run of spaces to one space
(runs of length one are unchanged by either formulation). -/
def spaceGo : Nat → List Char → List Char
  | _, [] => []
  | 0, l => l
  | fuel + 1, c :: cs =>
    if c = ' ' then ' ' :: spaceGo fuel (cs.dropWhile (fun d => d = ' '))
    else c :: spaceGo fuel cs

def spaceCollapse (l : List Char) : List Char := spaceGo l.length l

/-- `text.split("\n")`. -/
def splitLines : List Char → List (List Char)
  | [] => [[]]
  | c :: cs =>
    if c = '\n' then [] :: splitLines cs
    else
      match splitLines cs with
      | a :: as => (c :: a) :: as
      | [] => [[c]]

/-- `str.strip()`. -/
def pyStrip (l : List Char) : List Char :=
  ((l.dropWhile isWs).reverse.dropWhile isWs).reverse

/-- The blank-line collapsing loop of the source (`final_lines`, `blank_seen`). -/
def collapseBlanks : List (List Char) → Bool → List (List Char)
  | [], _ => []
  | a :: as, blankSeen =>
    if a.isEmpty then
      if blankSeen then collapseBlanks as true else [] :: collapseBlanks as true
    else a :: collapseBlanks as false

/-- `re.sub(r"\n{3,}", "\n\n", text)`. -/
def newlineGo : Nat → List Char → List Char
  | _, [] => []
  | 0, l => l
  | fuel + 1, c :: cs =>
    if c = '\n' then
      if 2 ≤ (cs.takeWhile (fun d => d = '\n')).length then
        '\n' :: '\n' :: newlineGo fuel (cs.dropWhile (fun d => d = '\n'))
      else '\n' :: newlineGo fuel cs
    else c :: newlineGo fuel cs

def newlineCollapse (l : List Char) : List Char := newlineGo l.length l

/-- The body of `clean_scholarship_text` on an actual string, rule by rule
in source order. -/
def cleanChars (l : List Char) : List Char :=
  let t1 := nfkd l
  let t2 := zeroWidthStrip t1
  let t3 := emailSub t2
  let t4 := phoneSub t3
  let t5 := urlSub t4
  let t6 := htmlSub t5
  let t7 := entitySub t6
  let t8 := bulletSub t7
  let t9 := dashSub t8
  let t10 := tabSub t9
  let t11 := spaceCollapse t10
  let lines := (splitLines t11).map pyStrip
  let finals := collapseBlanks lines false
  let t12 := List.intercalate ['\n'] finals
  let t13 := newlineCollapse t12
  pyStrip t13

def clean_scholarship_text (s : String) : String := ⟨cleanChars s.data⟩

/-! ### Records, frames and the `Apply Cleaning` pipeline -/

/-- A cell value: a string, an integer (for `scholarship_id`), or a
null/NaN/absent value.  `pd.notnull` is false exactly on the last. -/
inductive Value where
  | vstr : String → Value
  | vint : Int → Value
  | vnull : Value
deriving DecidableEq, Repr

def Value.notnull : Value → Bool
  | .vnull => false
  | _ => true

def Value.isStr : Value → Bool
  | .vstr _ => true
  | _ => false

/-- Python `str(...)` on a cell value (only ever applied after a `notnull`
guard in the source). -/
def Value.pyStr : Value → String
  | .vstr s => s
  | .vint n => toString n
  | .vnull => "nan"

/-- `clean_scholarship_text` applied to a cell: the
`if not isinstance(text, str): return ""` guard sends every non-string
value to the empty string. -/
def cleanValue : Value → String
  | .vstr s => clean_scholarship_text s
  | _ => ""

/-- A record: field name to value, first binding wins on lookup. -/
abbrev Row : Type := List (String × Value)

/-- `row.get(k)` / `row[k]`: absent fields behave as null. -/
def getVal (r : Row) (k : String) : Value :=
  match r.find? (fun p => p.1 == k) with
  | some p => p.2
  | none => Value.vnull

/-- Column assignment at row level: overwrite an existing field in place,
or append a new field at the end. -/
def setVal (r : Row) (k : String) (v : Value) : Row :=
  if r.any (fun p => p.1 == k) then
    r.map (fun p => if p.1 == k then (k, v) else p)
  else r ++ [(k, v)]

/-- One block of `build_scholarship_text`:
`if pd.notnull(row.get(F)): parts.append(F + ":\n" + str(row[F]))`. -/
def buildPart (r : Row) (field : String) : List String :=
  if (getVal r field).notnull then [field ++ ":\n" ++ (getVal r field).pyStr] else []

/-- `build_scholarship_text(row)`: the eight guarded blocks in source
order, joined by `"\n".join(parts)`. -/
def build_scholarship_text (r : Row) : String :=
  String.intercalate "\n"
    (buildPart r "Scholarship Name" ++ buildPart r "Provider" ++ buildPart r "Country" ++
     buildPart r "Eligibility" ++ buildPart r "Benefits" ++ buildPart r "Program" ++
     buildPart r "Deadline" ++ buildPart r "Application Link")

/-- A dataframe: a column list plus the rows. -/
structure Frame where
  cols : List String
  rows : List Row
deriving DecidableEq

/-- Adding a column: pandas keeps the position of an existing column and
appends a new one at the end. -/
def addCol (cols : List String) (n : String) : List String :=
  if cols.contains n then cols else cols ++ [n]

/-- The four checkboxes of the cleaning page. -/
structure CleaningOptions where
  add_scholarship_id : Bool
  combine_text : Bool
  clean_text : Bool
  deduplicate_on_text : Bool

/-- `if combine_text: cleaned_df['scholarship_text_raw'] = cleaned_df.apply(build_scholarship_text, axis=1)`. -/
def combineStage (opts : CleaningOptions) (f : Frame) : Frame :=
  if opts.combine_text then
    { cols := addCol f.cols "scholarship_text_raw",
      rows := f.rows.map (fun r =>
        setVal r "scholarship_text_raw" (Value.vstr (build_scholarship_text r))) }
  else f

/-- `if clean_text:` — pick `text_col`, and if that column exists apply
`clean_scholarship_text` to it to form `scholarship_text_cleaned`. -/
def cleanStage (opts : CleaningOptions) (f : Frame) : Frame :=
  if opts.clean_text then
    let textCol := if f.cols.contains "scholarship_text_raw" then "scholarship_text_raw"
                   else "Eligibility"
    if f.cols.contains textCol then
      { cols := addCol f.cols "scholarship_text_cleaned",
        rows := f.rows.map (fun r =>
          setVal r "scholarship_text_cleaned" (Value.vstr (cleanValue (getVal r textCol)))) }
    else f
  else f

/-- The deduplication key column value of a row. -/
def dedupKey (r : Row) : Value := getVal r "scholarship_text_cleaned"

/-- `drop_duplicates(subset=[...], keep='first')`: keep a row iff its key
was not seen before, scanning in order. -/
def keepFirstAux (key : Row → Value) (seen : List Value) : List Row → List Row
  | [] => []
  | r :: rs =>
    if key r ∈ seen then keepFirstAux key seen rs
    else r :: keepFirstAux key (key r :: seen) rs

def drop_duplicates_first (key : Row → Value) (l : List Row) : List Row :=
  keepFirstAux key [] l

/-- `if deduplicate_on_text and 'scholarship_text_cleaned' in cleaned_df.columns: ... drop_duplicates`. -/
def dedupStage (opts : CleaningOptions) (f : Frame) : Frame :=
  if opts.deduplicate_on_text && f.cols.contains "scholarship_text_cleaned" then
    { f with rows := drop_duplicates_first dedupKey f.rows }
  else f

/-- `cleaned_df['scholarship_id'] = range(len(cleaned_df))`: positional
assignment of 0, 1, ... -/
def assignIds (n : Nat) : List Row → List Row
  | [] => []
  | r :: rs => setVal r "scholarship_id" (Value.vint n) :: assignIds (n + 1) rs

def idStage (opts : CleaningOptions) (f : Frame) : Frame :=
  if opts.add_scholarship_id then
    { cols := addCol f.cols "scholarship_id", rows := assignIds 0 f.rows }
  else f

/-- The whole `Apply Cleaning` body on `cleaned_df = df.copy()`. -/
def clean_and_deduplicate (opts : CleaningOptions) (f : Frame) : Frame :=
  idStage opts (dedupStage opts (cleanStage opts (combineStage opts f)))

/-- The two session-state slots touched by the cleaning page. -/
structure SessionState where
  raw_scholarships_df : Option Frame
  cleaned_scholarships_df : Option Frame

/-- The `Apply Cleaning` click handler: reads the raw frame, computes the
cleaned frame on a copy, stores it in the cleaned slot. -/
def apply_cleaning_click (opts : CleaningOptions) (s : SessionState) : SessionState :=
  match s.raw_scholarships_df with
  | none => s
  | some df => { s with cleaned_scholarships_df := some (clean_and_deduplicate opts df) }

/-! ### Specification-side definitions (worded as in the spec, to be
compared against the source-side definitions above) -/

/-- Worded as in the spec: drop each record whose key equals the key of
some earlier record of the input, keeping the earlier prefix explicit. -/
def specKeepAux (key : Row → Value) (earlier : List Row) : List Row → List Row
  | [] => []
  | r :: rs =>
    if ∃ e ∈ earlier, key e = key r then specKeepAux key (earlier ++ [r]) rs
    else r :: specKeepAux key (earlier ++ [r]) rs

def spec_deduplicate (key : Row → Value) (l : List Row) : List Row :=
  specKeepAux key [] l

/-- The fixed field order of `build_scholarship_text`. -/
def recognizedFields : List String :=
  ["Scholarship Name", "Provider", "Country", "Eligibility", "Benefits",
   "Program", "Deadline", "Application Link"]

/-- Worded as in the spec: the newline-join of one block `"<Field>:\n<value>"`
for exactly the present-and-non-null recognized fields, in the fixed order. -/
def buildSpec (r : Row) : String :=
  String.intercalate "\n" (recognizedFields.filterMap (fun f =>
    if (getVal r f).notnull then some (f ++ ":\n" ++ (getVal r f).pyStr) else none))

/-! ### Token and normal-form vocabulary used to state text properties -/

/-- The maximal non-whitespace tokens of a text, in order. -/
def tokensGo : Nat → List Char → List (List Char)
  | _, [] => []
  | 0, _ => []
  | fuel + 1, c :: cs =>
    if isWs c then tokensGo fuel cs
    else (c :: cs.takeWhile (fun d => !isWs d)) :: tokensGo fuel (cs.dropWhile (fun d => !isWs d))

def tokens (l : List Char) : List (List Char) := tokensGo l.length l

/-- Printable ASCII (U+0021 `!` through U+007E `~`): no character in this
range has an NFKD decomposition, is whitespace (to Python or to the
model), or is a zero-width, bullet or dash glyph. -/
def printableAscii (c : Char) : Bool := decide ('!' ≤ c) && decide (c ≤ '~')

/-- A character that no character-level rule of `clean_scholarship_text`
touches: printable ASCII (so real NFKD is the identity on it and it is
not whitespace, zero-width, a bullet, a Unicode dash or a tab) and none
of the email/phone/URL/HTML/entity trigger characters.  On strings of
such characters the model and the real pipeline agree. -/
def inertChar (c : Char) : Bool :=
  printableAscii c && !(c = '@') && !c.isDigit &&
    !(c = ':') && !(c = '.') && !(c = '<') && !(c = '&')

/-- No two adjacent spaces. -/
def noDoubleSpace : List Char → Bool
  | a :: b :: t => !(a = ' ' && b = ' ') && noDoubleSpace (b :: t)
  | _ => true

def headNotSpace : List Char → Bool
  | [] => true
  | c :: _ => !(c = ' ')

/-- Single-line text already in cleaned normal form: rule-inert characters
and single separating spaces, with no leading or trailing space. -/
def normalizedWords (l : List Char) : Bool :=
  l.all (fun c => inertChar c || c = ' ') && noDoubleSpace l &&
    headNotSpace l && headNotSpace l.reverse

/-- All four cleaning options enabled. -/
def optsAll : CleaningOptions :=
  { add_scholarship_id := true, combine_text := true, clean_text := true,
    deduplicate_on_text := true }

/-- Five input records, the third an exact duplicate (by cleaned text) of
the first. -/
def frame5 : Frame :=
  { cols := ["Eligibility"],
    rows := [[("Eligibility", Value.vstr "a")],
             [("Eligibility", Value.vstr "b")],
             [("Eligibility", Value.vstr "a")],
             [("Eligibility", Value.vstr "c")],
             [("Eligibility", Value.vstr "d")]] }

/-- A one-record frame whose only column is `Eligibility`. -/
def frameElig : Frame :=
  { cols := ["Eligibility"], rows := [[("Eligibility", Value.vstr "x")]] }

/-- A one-record frame with neither `scholarship_text_raw` nor `Eligibility`
as a column. -/
def frameCountry : Frame :=
  { cols := ["Country"], rows := [[("Country", Value.vstr "y")]] }

/-! ### Fuel elimination: each scanner is independent of the fuel as soon
as the fuel dominates the length, giving back the natural unfolding
equations of the corresponding `re.sub` loop. -/

theorem emailGo_fuel :
    ∀ (fuel fuel' : Nat) (l : List Char), l.length ≤ fuel → l.length ≤ fuel' →
      emailGo fuel l = emailGo fuel' l := by
  intro fuel
  induction fuel with
  | zero =>
    intro fuel' l h _
    have : l = [] := List.length_eq_zero.mp (Nat.le_zero.mp h)
    subst this
    cases fuel' <;> rfl
  | succ fuel ih =>
    intro fuel' l h h'
    cases l with
    | nil => cases fuel' <;> rfl
    | cons c cs =>
      cases fuel' with
      | zero => simp at h'
      | succ fuel' =>
        simp only [List.length_cons, Nat.succ_le_succ_iff] at h h'
        simp only [emailGo]
        by_cases hw : isWs c
        · simp only [hw, if_true]
          rw [ih fuel' cs h h']
        · simp only [hw, Bool.false_eq_true, if_false]
          have hr : (cs.dropWhile (fun d => !isWs d)).length ≤ cs.length :=
            dropWhile_length_le _ cs
          rw [ih fuel' _ (Nat.le_trans hr h) (Nat.le_trans hr h')]

theorem emailSub_ws (c : Char) (cs : List Char) (h : isWs c = true) :
    emailSub (c :: cs) = c :: emailSub cs := by
  unfold emailSub
  simp only [List.length_cons, emailGo, h, if_true]

theorem emailSub_tok (c : Char) (cs : List Char) (h : isWs c = false) :
    emailSub (c :: cs) =
      (if hasInteriorAt (c :: cs.takeWhile (fun d => !isWs d)) then [' ']
       else c :: cs.takeWhile (fun d => !isWs d)) ++
        emailSub (cs.dropWhile (fun d => !isWs d)) := by
  unfold emailSub
  simp only [List.length_cons, emailGo, h, Bool.false_eq_true, if_false]
  congr 1
  exact emailGo_fuel cs.length _ _ (dropWhile_length_le _ cs) (Nat.le_refl _)

theorem subScanGo_fuel (m : List Char → Option Nat) (repl : List Char) :
    ∀ (fuel fuel' : Nat) (l : List Char), l.length ≤ fuel → l.length ≤ fuel' →
      subScanGo m repl fuel l = subScanGo m repl fuel' l := by
  intro fuel
  induction fuel with
  | zero =>
    intro fuel' l h _
    have : l = [] := List.length_eq_zero.mp (Nat.le_zero.mp h)
    subst this
    cases fuel' <;> rfl
  | succ fuel ih =>
    intro fuel' l h h'
    cases l with
    | nil => cases fuel' <;> rfl
    | cons c cs =>
      cases fuel' with
      | zero => simp at h'
      | succ fuel' =>
        simp only [List.length_cons, Nat.succ_le_succ_iff] at h h'
        simp only [subScanGo]
        cases hm : m (c :: cs) with
        | none =>
          dsimp only
          rw [ih fuel' cs h h']
        | some n =>
          dsimp only
          have hr : (cs.drop (n - 1)).length ≤ cs.length := by
            rw [List.length_drop]
            exact Nat.sub_le _ _
          rw [ih fuel' _ (Nat.le_trans hr h) (Nat.le_trans hr h')]

theorem subScan_match (m : List Char → Option Nat) (repl : List Char)
    (c : Char) (cs : List Char) (n : Nat) (hm : m (c :: cs) = some n) :
    subScan m repl (c :: cs) = repl ++ subScan m repl (cs.drop (n - 1)) := by
  unfold subScan
  simp only [List.length_cons, subScanGo, hm]
  congr 1
  refine subScanGo_fuel m repl cs.length _ _ ?_ (Nat.le_refl _)
  rw [List.length_drop]
  exact Nat.sub_le _ _

theorem subScan_nomatch (m : List Char → Option Nat) (repl : List Char)
    (c : Char) (cs : List Char) (hm : m (c :: cs) = none) :
    subScan m repl (c :: cs) = c :: subScan m repl cs := by
  unfold subScan
  simp only [List.length_cons, subScanGo, hm]

theorem spaceGo_fuel :
    ∀ (fuel fuel' : Nat) (l : List Char), l.length ≤ fuel → l.length ≤ fuel' →
      spaceGo fuel l = spaceGo fuel' l := by
  intro fuel
  induction fuel with
  | zero =>
    intro fuel' l h _
    have : l = [] := List.length_eq_zero.mp (Nat.le_zero.mp h)
    subst this
    cases fuel' <;> rfl
  | succ fuel ih =>
    intro fuel' l h h'
    cases l with
    | nil => cases fuel' <;> rfl
    | cons c cs =>
      cases fuel' with
      | zero => simp at h'
      | succ fuel' =>
        simp only [List.length_cons, Nat.succ_le_succ_iff] at h h'
        simp only [spaceGo]
        by_cases hc : c = ' '
        · simp only [hc, if_true]
          have hr : (cs.dropWhile (fun d => d = ' ')).length ≤ cs.length :=
            dropWhile_length_le _ cs
          rw [ih fuel' _ (Nat.le_trans hr h) (Nat.le_trans hr h')]
        · simp only [hc, if_false]
          rw [ih fuel' cs h h']

theorem spaceCollapse_space (cs : List Char) :
    spaceCollapse (' ' :: cs) = ' ' :: spaceCollapse (cs.dropWhile (fun d => d = ' ')) := by
  unfold spaceCollapse
  simp only [List.length_cons, spaceGo, if_true]
  congr 1
  exact spaceGo_fuel cs.length _ _ (dropWhile_length_le _ cs) (Nat.le_refl _)

theorem spaceCollapse_other (c : Char) (cs : List Char) (h : ¬c = ' ') :
    spaceCollapse (c :: cs) = c :: spaceCollapse cs := by
  unfold spaceCollapse
  simp only [List.length_cons, spaceGo, h, if_false]

theorem newlineGo_fuel :
    ∀ (fuel fuel' : Nat) (l : List Char), l.length ≤ fuel → l.length ≤ fuel' →
      newlineGo fuel l = newlineGo fuel' l := by
  intro fuel
  induction fuel with
  | zero =>
    intro fuel' l h _
    have : l = [] := List.length_eq_zero.mp (Nat.le_zero.mp h)
    subst this
    cases fuel' <;> rfl
  | succ fuel ih =>
    intro fuel' l h h'
    cases l with
    | nil => cases fuel' <;> rfl
    | cons c cs =>
      cases fuel' with
      | zero => simp at h'
      | succ fuel' =>
        simp only [List.length_cons, Nat.succ_le_succ_iff] at h h'
        simp only [newlineGo]
        by_cases hc : c = '\n'
        · simp only [hc, if_true]
          by_cases h2 : 2 ≤ (cs.takeWhile (fun d => d = '\n')).length
          · simp only [h2, if_true]
            have hr : (cs.dropWhile (fun d => d = '\n')).length ≤ cs.length :=
              dropWhile_length_le _ cs
            rw [ih fuel' _ (Nat.le_trans hr h) (Nat.le_trans hr h')]
          · simp only [h2, if_false]
            rw [ih fuel' cs h h']
        · simp only [hc, if_false]
          rw [ih fuel' cs h h']

theorem newlineCollapse_nl_run (cs : List Char)
    (h2 : 2 ≤ (cs.takeWhile (fun d => d = '\n')).length) :
    newlineCollapse ('\n' :: cs) =
      '\n' :: '\n' :: newlineCollapse (cs.dropWhile (fun d => d = '\n')) := by
  unfold newlineCollapse
  simp only [List.length_cons, newlineGo, h2, if_true]
  congr 2
  exact newlineGo_fuel cs.length _ _ (dropWhile_length_le _ cs) (Nat.le_refl _)

theorem tokensGo_fuel :
    ∀ (fuel fuel' : Nat) (l : List Char), l.length ≤ fuel → l.length ≤ fuel' →
      tokensGo fuel l = tokensGo fuel' l := by
  intro fuel
  induction fuel with
  | zero =>
    intro fuel' l h _
    have : l = [] := List.length_eq_zero.mp (Nat.le_zero.mp h)
    subst this
    cases fuel' <;> rfl
  | succ fuel ih =>
    intro fuel' l h h'
    cases l with
    | nil => cases fuel' <;> rfl
    | cons c cs =>
      cases fuel' with
      | zero => simp at h'
      | succ fuel' =>
        simp only [List.length_cons, Nat.succ_le_succ_iff] at h h'
        simp only [tokensGo]
        by_cases hw : isWs c
        · simp only [hw, if_true]
          rw [ih fuel' cs h h']
        · simp only [hw, Bool.false_eq_true, if_false]
          have hr : (cs.dropWhile (fun d => !isWs d)).length ≤ cs.length :=
            dropWhile_length_le _ cs
          rw [ih fuel' _ (Nat.le_trans hr h) (Nat.le_trans hr h')]

theorem tokens_ws (c : Char) (cs : List Char) (h : isWs c = true) :
    tokens (c :: cs) = tokens cs := by
  unfold tokens
  simp only [List.length_cons, tokensGo, h, if_true]

theorem tokens_tok (c : Char) (cs : List Char) (h : isWs c = false) :
    tokens (c :: cs) =
      (c :: cs.takeWhile (fun d => !isWs d)) :: tokens (cs.dropWhile (fun d => !isWs d)) := by
  unfold tokens
  simp only [List.length_cons, tokensGo, h, Bool.false_eq_true, if_false]
  congr 1
  exact tokensGo_fuel cs.length _ _ (dropWhile_length_le _ cs) (Nat.le_refl _)

/-! ### Helper lemmas about rows and the pipeline stages -/

theorem find_map_replace (r : Row) (k : String) (v : Value) :
    (r.map (fun p => if p.1 == k then (k, v) else p)).find? (fun p => p.1 == k) =
      if r.any (fun p => p.1 == k) then some (k, v) else none := by
  induction r with
  | nil => rfl
  | cons p r ih =>
    by_cases h : p.1 == k
    · simp [List.find?, h, -List.find?_map]
    · simp only [beq_iff_eq] at ih
      have hb : (p.1 == k) = false := by simpa using h
      simp [List.find?, hb, ih, -List.find?_map]
      rw [hb, Bool.false_or]

theorem getVal_setVal_same (r : Row) (k : String) (v : Value) :
    getVal (setVal r k v) k = v := by
  unfold setVal getVal
  by_cases h : r.any (fun p => p.1 == k)
  · rw [if_pos h, find_map_replace, if_pos h]
  · rw [if_neg h]
    have hnone : r.find? (fun p => p.1 == k) = none := by
      rw [List.find?_eq_none]
      intro x hx hpx
      exact h (List.any_eq_true.mpr ⟨x, hx, hpx⟩)
    rw [List.find?_append, hnone]
    simp [List.find?]

theorem assignIds_length (n : Nat) (l : List Row) :
    (assignIds n l).length = l.length := by
  induction l generalizing n with
  | nil => rfl
  | cons r rs ih => simp [assignIds, ih]

theorem getVal_assignIds (l : List Row) (n i : Nat) (h : i < l.length) :
    getVal ((assignIds n l).getD i []) "scholarship_id" = Value.vint (n + i) := by
  induction l generalizing n i with
  | nil => simp at h
  | cons r rs ih =>
    cases i with
    | zero => simpa [assignIds] using getVal_setVal_same r "scholarship_id" (Value.vint n)
    | succ i =>
      simp only [assignIds, List.getD_cons_succ]
      rw [ih (n + 1) i (by simpa using h)]
      congr 1
      omega

theorem keepFirstAux_eq_specKeepAux (key : Row → Value) (rs : List Row)
    (seen : List Value) (earlier : List Row)
    (hinv : ∀ v, v ∈ seen ↔ ∃ e ∈ earlier, key e = v) :
    keepFirstAux key seen rs = specKeepAux key earlier rs := by
  induction rs generalizing seen earlier with
  | nil => rfl
  | cons r rs ih =>
    unfold keepFirstAux specKeepAux
    by_cases h : key r ∈ seen
    · rw [if_pos h, if_pos ((hinv (key r)).mp h)]
      refine ih _ _ (fun v => ?_)
      constructor
      · intro hv
        obtain ⟨e, he, hke⟩ := (hinv v).mp hv
        exact ⟨e, by simp [he], hke⟩
      · rintro ⟨e, he, hke⟩
        rcases List.mem_append.mp he with h1 | h2
        · exact (hinv v).mpr ⟨e, h1, hke⟩
        · have : e = r := by simpa using h2
          subst this
          exact hke ▸ h
    · rw [if_neg h, if_neg (fun hex => h ((hinv (key r)).mpr hex))]
      refine congrArg (r :: ·) (ih _ _ (fun v => ?_))
      constructor
      · intro hv
        rcases List.mem_cons.mp hv with h1 | h2
        · exact ⟨r, by simp, h1.symm⟩
        · obtain ⟨e, he, hke⟩ := (hinv v).mp h2
          exact ⟨e, by simp [he], hke⟩
      · rintro ⟨e, he, hke⟩
        rcases List.mem_append.mp he with h1 | h2
        · exact List.mem_cons_of_mem _ ((hinv v).mpr ⟨e, h1, hke⟩)
        · have : e = r := by simpa using h2
          subst this
          exact hke ▸ List.mem_cons_self _ _

theorem drop_duplicates_eq_spec (key : Row → Value) (l : List Row) :
    drop_duplicates_first key l = spec_deduplicate key l :=
  keepFirstAux_eq_specKeepAux key l [] [] (by simp)

theorem keepFirstAux_sublist (key : Row → Value) (rs : List Row) (seen : List Value) :
    List.Sublist (keepFirstAux key seen rs) rs := by
  induction rs generalizing seen with
  | nil => simp [keepFirstAux]
  | cons r rs ih =>
    unfold keepFirstAux
    split
    · exact List.Sublist.cons _ (ih _)
    · exact List.Sublist.cons₂ _ (ih _)

theorem filterMap_if_cons {α β : Type} (p : α → Bool) (g : α → β) (a : α) (l : List α) :
    List.filterMap (fun x => if p x then some (g x) else none) (a :: l) =
      (if p a then [g a] else []) ++
        List.filterMap (fun x => if p x then some (g x) else none) l := by
  by_cases h : p a <;> simp [h]

theorem getVal_perm (r r' : Row) (h : r.Perm r') (hnd : (r.map Prod.fst).Nodup)
    (k : String) : getVal r k = getVal r' k := by
  unfold getVal
  cases hf : r.find? (fun p => p.1 == k) with
  | none =>
    have hnone : r'.find? (fun p => p.1 == k) = none := by
      rw [List.find?_eq_none] at hf ⊢
      intro a ha
      exact hf a (h.mem_iff.mpr ha)
    rw [hnone]
  | some p =>
    have hpmem : p ∈ r := List.mem_of_find?_eq_some hf
    have hpk : p.1 = k := by simpa using List.find?_some hf
    cases hf' : r'.find? (fun p => p.1 == k) with
    | none =>
      rw [List.find?_eq_none] at hf'
      exact absurd (by simpa using hpk) (hf' p (h.mem_iff.mp hpmem))
    | some q =>
      have hqmem : q ∈ r' := List.mem_of_find?_eq_some hf'
      have hqk : q.1 = k := by simpa using List.find?_some hf'
      have hpq : p = q :=
        List.inj_on_of_nodup_map hnd hpmem (h.mem_iff.mpr hqmem) (by rw [hpk, hqk])
      rw [hpq]

/-! ### Identity lemmas: text free of a rule's triggers passes through the
rule unchanged -/

theorem charExpand_id (f : Char → List Char) (l : List Char)
    (h : ∀ c ∈ l, f c = [c]) : charExpand f l = l := by
  induction l with
  | nil => rfl
  | cons c cs ih =>
    simp only [charExpand]
    rw [h c (List.mem_cons_self c cs), ih (fun d hd => h d (List.mem_cons_of_mem _ hd))]
    rfl

theorem zeroWidthStrip_id (l : List Char) (h : ∀ c ∈ l, isZeroWidth c = false) :
    zeroWidthStrip l = l := by
  unfold zeroWidthStrip
  rw [List.filter_eq_self]
  intro a ha
  rw [h a ha]
  rfl

theorem hasInteriorAt_eq_false (t : List Char) (h : ∀ c ∈ t, ¬c = '@') :
    hasInteriorAt t = false := by
  unfold hasInteriorAt
  rw [decide_eq_false_iff_not]
  intro hm
  exact h '@' (List.drop_subset 1 t (List.dropLast_subset _ hm)) rfl

theorem emailGo_id (fuel : Nat) (l : List Char) (h : ∀ c ∈ l, ¬c = '@') :
    emailGo fuel l = l := by
  induction fuel generalizing l with
  | zero => cases l <;> rfl
  | succ fuel ih =>
    cases l with
    | nil => rfl
    | cons c cs =>
      simp only [emailGo]
      by_cases hw : isWs c
      · simp only [hw, if_true]
        rw [ih cs (fun d hd => h d (List.mem_cons_of_mem _ hd))]
      · simp only [hw, Bool.false_eq_true, if_false]
        have htok : hasInteriorAt (c :: cs.takeWhile (fun d => !isWs d)) = false := by
          apply hasInteriorAt_eq_false
          intro d hd
          rcases List.mem_cons.mp hd with rfl | hd'
          · exact h d (List.mem_cons_self _ _)
          · exact h d (List.mem_cons_of_mem _ (List.takeWhile_subset _ hd'))
        simp only [htok, Bool.false_eq_true, if_false]
        rw [ih _ (fun d hd => h d (List.mem_cons_of_mem _ (List.dropWhile_subset _ hd)))]
        simp only [List.cons_append, List.takeWhile_append_dropWhile]

theorem emailSub_id (l : List Char) (h : ∀ c ∈ l, ¬c = '@') : emailSub l = l :=
  emailGo_id l.length l h

theorem subScanGo_id (m : List Char → Option Nat) (repl : List Char) (P : Char → Prop)
    (hmatch : ∀ l : List Char, (∀ c ∈ l, P c) → m l = none) :
    ∀ (fuel : Nat) (l : List Char), (∀ c ∈ l, P c) → subScanGo m repl fuel l = l := by
  intro fuel
  induction fuel with
  | zero => intro l _; cases l <;> rfl
  | succ fuel ih =>
    intro l h
    cases l with
    | nil => rfl
    | cons c cs =>
      simp only [subScanGo]
      rw [hmatch (c :: cs) h]
      dsimp only
      rw [ih cs (fun d hd => h d (List.mem_cons_of_mem _ hd))]

theorem subScan_id (m : List Char → Option Nat) (repl : List Char) (P : Char → Prop)
    (hmatch : ∀ l : List Char, (∀ c ∈ l, P c) → m l = none)
    (l : List Char) (h : ∀ c ∈ l, P c) : subScan m repl l = l :=
  subScanGo_id m repl P hmatch l.length l h

theorem phoneMatchLen_none (l : List Char) (h : ∀ c ∈ l, c.isDigit = false) :
    phoneMatchLen l = none := by
  cases l with
  | nil => rfl
  | cons c t =>
    simp only [phoneMatchLen]
    by_cases hc : c = '+'
    · subst hc
      rw [if_pos rfl]
      cases t with
      | nil => rfl
      | cons d t' =>
        simp only [h d (by simp), Bool.false_eq_true, if_false]
    · rw [if_neg hc]
      simp only [h c (List.mem_cons_self _ _), Bool.false_eq_true, if_false]

theorem phoneSub_id (l : List Char) (h : ∀ c ∈ l, c.isDigit = false) :
    phoneSub l = l :=
  subScan_id _ _ (fun c => c.isDigit = false) phoneMatchLen_none l h

theorem urlMatchLen_none (l : List Char) (h : ∀ c ∈ l, ¬c = ':' ∧ ¬c = '.') :
    urlMatchLen l = none := by
  have hpre : ∀ p : List Char, ':' ∈ p ∨ '.' ∈ p → listPre p l = false := by
    intro p hp
    unfold listPre
    rw [decide_eq_false_iff_not]
    intro heq
    rcases hp with hc | hc
    · exact (h ':' (List.mem_of_mem_take (heq.symm ▸ hc))).1 rfl
    · exact (h '.' (List.mem_of_mem_take (heq.symm ▸ hc))).2 rfl
  unfold urlMatchLen
  rw [hpre "https://".data (Or.inl (by decide)),
      hpre "http://".data (Or.inl (by decide)),
      hpre "www.".data (Or.inr (by decide))]
  simp

theorem urlSub_id (l : List Char) (h : ∀ c ∈ l, ¬c = ':' ∧ ¬c = '.') :
    urlSub l = l :=
  subScan_id _ _ (fun c => ¬c = ':' ∧ ¬c = '.') urlMatchLen_none l h

theorem htmlMatchLen_none (l : List Char) (h : ∀ c ∈ l, ¬c = '<') :
    htmlMatchLen l = none := by
  cases l with
  | nil => rfl
  | cons c t =>
    have hc : ¬c = '<' := h c (List.mem_cons_self _ _)
    unfold htmlMatchLen
    split <;> simp_all

theorem htmlSub_id (l : List Char) (h : ∀ c ∈ l, ¬c = '<') : htmlSub l = l :=
  subScan_id _ _ (fun c => ¬c = '<') htmlMatchLen_none l h

theorem entityMatchLen_none (l : List Char) (h : ∀ c ∈ l, ¬c = '&') :
    entityMatchLen l = none := by
  cases l with
  | nil => rfl
  | cons c t =>
    have hc : ¬c = '&' := h c (List.mem_cons_self _ _)
    unfold entityMatchLen
    split <;> simp_all

theorem entitySub_id (l : List Char) (h : ∀ c ∈ l, ¬c = '&') : entitySub l = l :=
  subScan_id _ _ (fun c => ¬c = '&') entityMatchLen_none l h

theorem bulletSub_id (l : List Char) (h : ∀ c ∈ l, isBullet c = false) :
    bulletSub l = l := by
  unfold bulletSub
  exact charExpand_id _ l (fun c hc => by simp [h c hc])

theorem map_id_of (f : Char → Char) (l : List Char) (h : ∀ c ∈ l, f c = c) :
    l.map f = l := by
  induction l with
  | nil => rfl
  | cons c cs ih =>
    simp only [List.map_cons]
    rw [h c (List.mem_cons_self _ _), ih (fun d hd => h d (List.mem_cons_of_mem _ hd))]

theorem dashSub_id (l : List Char) (h : ∀ c ∈ l, ¬c = '–' ∧ ¬c = '—') :
    dashSub l = l := by
  unfold dashSub
  exact map_id_of _ l (fun c hc => by simp [(h c hc).1, (h c hc).2])

theorem tabSub_id (l : List Char) (h : ∀ c ∈ l, ¬c = '\t') : tabSub l = l := by
  unfold tabSub
  exact map_id_of _ l (fun c hc => by simp [h c hc])

theorem noDoubleSpace_tail (a : Char) (t : List Char)
    (h : noDoubleSpace (a :: t) = true) : noDoubleSpace t = true := by
  cases t with
  | nil => rfl
  | cons b t' =>
    simp only [noDoubleSpace, Bool.and_eq_true] at h
    exact h.2

theorem spaceGo_nil (fuel : Nat) : spaceGo fuel [] = [] := by cases fuel <;> rfl

theorem spaceGo_id (fuel : Nat) (l : List Char) (h : noDoubleSpace l = true) :
    spaceGo fuel l = l := by
  induction fuel generalizing l with
  | zero => cases l <;> rfl
  | succ fuel ih =>
    cases l with
    | nil => rfl
    | cons c cs =>
      simp only [spaceGo]
      by_cases hc : c = ' '
      · subst hc
        rw [if_pos rfl]
        cases cs with
        | nil => simp [List.dropWhile, spaceGo_nil]
        | cons d cs' =>
          have hd : ¬d = ' ' := by
            intro hdd
            subst hdd
            simp [noDoubleSpace] at h
          rw [List.dropWhile_cons, if_neg (by simpa using hd)]
          rw [ih (d :: cs') (noDoubleSpace_tail _ _ h)]
      · rw [if_neg hc, ih cs (noDoubleSpace_tail _ _ h)]

theorem spaceCollapse_id (l : List Char) (h : noDoubleSpace l = true) :
    spaceCollapse l = l :=
  spaceGo_id l.length l h

theorem splitLines_no_nl (l : List Char) (h : ∀ c ∈ l, ¬c = '\n') :
    splitLines l = [l] := by
  induction l with
  | nil => rfl
  | cons c cs ih =>
    simp only [splitLines]
    rw [if_neg (h c (List.mem_cons_self _ _)),
        ih (fun d hd => h d (List.mem_cons_of_mem _ hd))]

theorem dropWhile_eq_self_of_head (p : Char → Bool) (l : List Char)
    (h : ∀ c, l.head? = some c → p c = false) : l.dropWhile p = l := by
  cases l with
  | nil => rfl
  | cons c cs => rw [List.dropWhile_cons, if_neg (by simp [h c rfl])]

theorem pyStrip_eq_self (l : List Char)
    (h1 : ∀ c, l.head? = some c → isWs c = false)
    (h2 : ∀ c, l.getLast? = some c → isWs c = false) :
    pyStrip l = l := by
  unfold pyStrip
  rw [dropWhile_eq_self_of_head _ _ h1,
      dropWhile_eq_self_of_head _ _ (fun c hc => h2 c (by rwa [List.head?_reverse] at hc)),
      List.reverse_reverse]

theorem collapseBlanks_singleton (a : List Char) (h : a ≠ []) :
    collapseBlanks [a] false = [a] := by
  simp [collapseBlanks, h]

theorem intercalate_singleton (a : List Char) : List.intercalate ['\n'] [a] = a := by
  simp [List.intercalate]

theorem newlineGo_id (fuel : Nat) (l : List Char) (h : ∀ c ∈ l, ¬c = '\n') :
    newlineGo fuel l = l := by
  induction fuel generalizing l with
  | zero => cases l <;> rfl
  | succ fuel ih =>
    cases l with
    | nil => rfl
    | cons c cs =>
      simp only [newlineGo]
      rw [if_neg (h c (List.mem_cons_self _ _)),
          ih cs (fun d hd => h d (List.mem_cons_of_mem _ hd))]

theorem newlineCollapse_id (l : List Char) (h : ∀ c ∈ l, ¬c = '\n') :
    newlineCollapse l = l :=
  newlineGo_id l.length l h

theorem mem_of_getLast? {l : List Char} {c : Char} (h : l.getLast? = some c) :
    c ∈ l := by
  rw [← List.head?_reverse] at h
  have : c ∈ l.reverse := by
    cases hr : l.reverse with
    | nil => rw [hr] at h; cases h
    | cons x t =>
      rw [hr] at h
      simp only [List.head?_cons, Option.some_inj] at h
      subst h
      exact List.mem_cons_self _ _
  exact List.mem_reverse.mp this

/-- The facts about a printable-ASCII character that the identity lemmas
need: none of the non-ASCII or control-character rules can touch it, and
the modelled NFKD table (whose entries are all non-ASCII) leaves it
alone — exactly as real NFKD does on this range. -/
theorem printable_facts (c : Char) (h : printableAscii c = true) :
    nfkdChar c = [c] ∧ isZeroWidth c = false ∧ isBullet c = false ∧
    (¬c = '–' ∧ ¬c = '—') ∧ ¬c = '\t' ∧ isWs c = false := by
  simp only [printableAscii, Bool.and_eq_true, decide_eq_true_eq] at h
  obtain ⟨h1, h2⟩ := h
  have hne : ∀ x : Char, '~' < x → ¬c = x := fun x hx he =>
    absurd h2 (not_le.mpr (he ▸ hx))
  have hlo : ∀ x : Char, x < '!' → ¬c = x := fun x hx he =>
    absurd h1 (not_le.mpr (he ▸ hx))
  refine ⟨?_, ?_, ?_, ⟨hne '–' (by decide), hne '—' (by decide)⟩,
    hlo '\t' (by decide), ?_⟩
  · unfold nfkdChar
    rw [if_neg (hne 'é' (by decide)), if_neg (hne 'è' (by decide)),
        if_neg (hne 'à' (by decide)), if_neg (hne 'ç' (by decide)),
        if_neg (hne 'ñ' (by decide)), if_neg (hne ' ' (by decide))]
  · cases hzw : isZeroWidth c
    · rfl
    · exfalso
      simp only [isZeroWidth, Bool.or_eq_true, decide_eq_true_eq] at hzw
      rcases hzw with (((he | he) | he) | he) | he <;> exact hne _ (by decide) he
  · cases hb : isBullet c
    · rfl
    · exfalso
      simp only [isBullet, Bool.or_eq_true, decide_eq_true_eq] at hb
      rcases hb with ((((((((he | he) | he) | he) | he) | he) | he) | he) | he) | he <;>
        exact hne _ (by decide) he
  · cases hw : isWs c
    · rfl
    · exfalso
      simp only [isWs, Bool.or_eq_true, decide_eq_true_eq] at hw
      rcases hw with ((((he | he) | he) | he) | he) | he <;> exact hlo _ (by decide) he

theorem inert_printable (c : Char) (h : inertChar c = true) :
    printableAscii c = true := by
  simp only [inertChar, Bool.and_eq_true] at h
  exact h.1.1.1.1.1.1

theorem inert_not_ws (c : Char) (h : inertChar c = true) : isWs c = false :=
  (printable_facts c (inert_printable c h)).2.2.2.2.2

theorem inert_not_nl (c : Char) (h : inertChar c = true) : ¬c = '\n' := by
  intro he
  subst he
  exact absurd (inert_not_ws _ h) (by decide)

/-- The pointwise facts shared by rule-inert characters, spaces and
newlines: none of them triggers a character-level cleaning rule. -/
theorem plain_char_facts (c : Char) (h : inertChar c = true ∨ c = ' ' ∨ c = '\n') :
    nfkdChar c = [c] ∧ isZeroWidth c = false ∧ ¬c = '@' ∧ c.isDigit = false ∧
    (¬c = ':' ∧ ¬c = '.') ∧ ¬c = '<' ∧ ¬c = '&' ∧ isBullet c = false ∧
    (¬c = '–' ∧ ¬c = '—') ∧ ¬c = '\t' := by
  rcases h with hi | rfl | rfl
  · obtain ⟨f1, f2, f3, f4, f5, f6⟩ := printable_facts c (inert_printable c hi)
    simp only [inertChar, Bool.and_eq_true, Bool.not_eq_true', decide_eq_true_eq,
      decide_eq_false_iff_not] at hi
    refine ⟨f1, f2, ?_, ?_, ⟨?_, ?_⟩, ?_, ?_, f3, f4, f5⟩ <;> tauto
  · refine ⟨by decide, by decide, by decide, by decide, ⟨by decide, by decide⟩,
      by decide, by decide, by decide, ⟨by decide, by decide⟩, by decide⟩
  · refine ⟨by decide, by decide, by decide, by decide, ⟨by decide, by decide⟩,
      by decide, by decide, by decide, ⟨by decide, by decide⟩, by decide⟩

/-- The character-level stages 1–11 of the pipeline fix any text whose
characters are rule-inert, spaces or newlines, provided no two spaces are
adjacent. -/
theorem charStages_id (l : List Char)
    (hchars : ∀ c ∈ l, inertChar c = true ∨ c = ' ' ∨ c = '\n')
    (hnds : noDoubleSpace l = true) :
    spaceCollapse (tabSub (dashSub (bulletSub (entitySub (htmlSub (urlSub (phoneSub
      (emailSub (zeroWidthStrip (nfkd l)))))))))) = l := by
  have F := fun c hc => plain_char_facts c (hchars c hc)
  rw [show nfkd l = l from charExpand_id _ _ (fun c hc => (F c hc).1)]
  rw [zeroWidthStrip_id _ (fun c hc => (F c hc).2.1)]
  rw [emailSub_id _ (fun c hc => (F c hc).2.2.1)]
  rw [phoneSub_id _ (fun c hc => (F c hc).2.2.2.1)]
  rw [urlSub_id _ (fun c hc => (F c hc).2.2.2.2.1)]
  rw [htmlSub_id _ (fun c hc => (F c hc).2.2.2.2.2.1)]
  rw [entitySub_id _ (fun c hc => (F c hc).2.2.2.2.2.2.1)]
  rw [bulletSub_id _ (fun c hc => (F c hc).2.2.2.2.2.2.2.1)]
  rw [dashSub_id _ (fun c hc => (F c hc).2.2.2.2.2.2.2.2.1)]
  rw [tabSub_id _ (fun c hc => (F c hc).2.2.2.2.2.2.2.2.2)]
  exact spaceCollapse_id l hnds

/-- A single-line text in cleaned normal form is a fixed point of the whole
cleaning function. -/
theorem cleanChars_id_of_normalized (l : List Char) (h : normalizedWords l = true) :
    cleanChars l = l := by
  by_cases hemp : l = []
  · subst hemp
    rfl
  · simp only [normalizedWords, Bool.and_eq_true, List.all_eq_true] at h
    obtain ⟨⟨⟨hall, hnds⟩, hhead⟩, hlastns⟩ := h
    have hchars : ∀ c ∈ l, inertChar c = true ∨ c = ' ' := by
      intro c hc
      have := hall c hc
      simpa using this
    have hchars3 : ∀ c ∈ l, inertChar c = true ∨ c = ' ' ∨ c = '\n' := by
      intro c hc
      rcases hchars c hc with hi | hs
      · exact Or.inl hi
      · exact Or.inr (Or.inl hs)
    have hnl : ∀ c ∈ l, ¬c = '\n' := by
      intro c hc he
      rcases hchars c hc with hi | hs
      · exact inert_not_nl c hi he
      · rw [hs] at he
        cases he
    have hheadws : ∀ c, l.head? = some c → isWs c = false := by
      intro c hc
      cases l with
      | nil => cases hc
      | cons x xs =>
        simp only [List.head?_cons, Option.some_inj] at hc
        rw [← hc]
        rcases hchars x (List.mem_cons_self _ _) with hi | hs
        · exact inert_not_ws x hi
        · rw [hs] at hhead
          simp [headNotSpace] at hhead
    have hlastws : ∀ c, l.getLast? = some c → isWs c = false := by
      intro c hc
      have hcmem : c ∈ l := mem_of_getLast? hc
      rcases hchars c hcmem with hi | hs
      · exact inert_not_ws c hi
      · rw [← List.head?_reverse] at hc
        cases hr : l.reverse with
        | nil => rw [hr] at hc; cases hc
        | cons x xs =>
          rw [hr] at hc
          simp only [List.head?_cons, Option.some_inj] at hc
          subst hc
          rw [hr, hs] at hlastns
          simp [headNotSpace] at hlastns
    have hstrip : pyStrip l = l := pyStrip_eq_self l hheadws hlastws
    simp only [cleanChars]
    rw [charStages_id l hchars3 hnds]
    rw [splitLines_no_nl l hnl]
    simp only [List.map_cons, List.map_nil]
    rw [hstrip, collapseBlanks_singleton l hemp, intercalate_singleton,
        newlineCollapse_id l hnl, hstrip]

theorem inert_no_space (a : List Char) (h : ∀ c ∈ a, inertChar c = true) :
    ∀ c ∈ a, ¬c = ' ' := by
  intro c hc he
  subst he
  exact absurd (inert_not_ws _ (h _ hc)) (by decide)

theorem dropWhile_head_false (p : Char → Bool) (l : List Char) (w : Char)
    (r' : List Char) (h : l.dropWhile p = w :: r') : p w = false := by
  induction l with
  | nil => cases h
  | cons x xs ih =>
    rw [List.dropWhile_cons] at h
    by_cases hp : p x
    · rw [if_pos hp] at h
      exact ih h
    · rw [if_neg hp] at h
      cases h
      simpa using hp

/-- Appending a nonempty all-non-whitespace token in front of text that is
empty or starts with whitespace contributes exactly one token. -/
theorem tokens_append_tok (tok r : List Char) (h0 : tok ≠ [])
    (h1 : ∀ c ∈ tok, isWs c = false)
    (h2 : r = [] ∨ ∃ w r', r = w :: r' ∧ isWs w = true) :
    tokens (tok ++ r) = tok :: tokens r := by
  cases tok with
  | nil => contradiction
  | cons c ts =>
    rw [List.cons_append, tokens_tok c (ts ++ r) (h1 c (List.mem_cons_self _ _))]
    have hts : ∀ d ∈ ts, (fun d => !isWs d) d = true := fun d hd => by
      simp [h1 d (List.mem_cons_of_mem _ hd)]
    rw [List.takeWhile_append_of_pos hts, List.dropWhile_append_of_pos hts]
    have htr : r.takeWhile (fun d => !isWs d) = [] ∧ r.dropWhile (fun d => !isWs d) = r := by
      rcases h2 with rfl | ⟨w, r', rfl, hw⟩
      · exact ⟨rfl, rfl⟩
      · constructor
        · rw [List.takeWhile_cons, if_neg (by simp [hw])]
        · rw [List.dropWhile_cons, if_neg (by simp [hw])]
    rw [htr.1, htr.2, List.append_nil]

/-- After the email rule has run, no maximal non-whitespace token contains
an interior `'@'` (one with non-whitespace on both sides): every such
token was replaced by a space. -/
theorem tokens_emailSub_aux :
    ∀ (n : Nat) (l : List Char), l.length ≤ n →
      ∀ t ∈ tokens (emailSub l), hasInteriorAt t = false := by
  intro n
  induction n with
  | zero =>
    intro l hl t ht
    have : l = [] := List.length_eq_zero.mp (Nat.le_zero.mp hl)
    subst this
    cases ht
  | succ n ih =>
    intro l hl t ht
    cases l with
    | nil => cases ht
    | cons c cs =>
      simp only [List.length_cons, Nat.succ_le_succ_iff] at hl
      by_cases hw : isWs c
      · rw [emailSub_ws c cs hw, tokens_ws c _ hw] at ht
        exact ih cs hl t ht
      · have hwf : isWs c = false := by simpa using hw
        rw [emailSub_tok c cs hwf] at ht
        have hrest : (cs.dropWhile (fun d => !isWs d)).length ≤ n :=
          Nat.le_trans (dropWhile_length_le _ cs) hl
        by_cases hint : hasInteriorAt (c :: cs.takeWhile (fun d => !isWs d))
        · rw [if_pos hint, List.cons_append, List.nil_append,
              tokens_ws ' ' _ (by decide)] at ht
          exact ih _ hrest t ht
        · rw [if_neg hint] at ht
          have hemrest : emailSub (cs.dropWhile (fun d => !isWs d)) = [] ∨
              ∃ w r', emailSub (cs.dropWhile (fun d => !isWs d)) = w :: r' ∧
                isWs w = true := by
            cases hr : cs.dropWhile (fun d => !isWs d) with
            | nil => exact Or.inl rfl
            | cons w r' =>
              have hwsw : isWs w = true := by
                have := dropWhile_head_false _ cs w r' hr
                simpa using this
              exact Or.inr ⟨w, emailSub r', by rw [emailSub_ws w r' hwsw], hwsw⟩
          rw [tokens_append_tok _ _ (by simp) ?_ hemrest] at ht
          · rcases List.mem_cons.mp ht with rfl | ht'
            · simpa using hint
            · exact ih _ hrest t ht'
          · intro d hd
            rcases List.mem_cons.mp hd with rfl | hd'
            · exact hwf
            · have := List.mem_takeWhile_imp hd'
              simpa using this

theorem tokens_emailSub (l : List Char) :
    ∀ t ∈ tokens (emailSub l), hasInteriorAt t = false :=
  tokens_emailSub_aux l.length l (Nat.le_refl _)

/-! ### Claims -/

/-- C2: with deduplication enabled and `scholarship_text_cleaned` present,
the pipeline drops exactly the records whose cleaned text equals the
cleaned text of an earlier record, keeping first occurrences; otherwise it
drops nothing; in both cases the surviving records keep their input
order (the output rows form a sublist of the input rows). -/
theorem dedup_on_cleaned_text_spec (opts : CleaningOptions) (f : Frame) :
    ((dedupStage opts (cleanStage opts (combineStage opts f))).rows =
      if opts.deduplicate_on_text &&
          (cleanStage opts (combineStage opts f)).cols.contains "scholarship_text_cleaned" then
        spec_deduplicate dedupKey (cleanStage opts (combineStage opts f)).rows
      else (cleanStage opts (combineStage opts f)).rows) ∧
    List.Sublist (dedupStage opts (cleanStage opts (combineStage opts f))).rows
      (cleanStage opts (combineStage opts f)).rows := by
  unfold dedupStage
  by_cases h : opts.deduplicate_on_text &&
      (cleanStage opts (combineStage opts f)).cols.contains "scholarship_text_cleaned"
  · rw [if_pos h, if_pos h]
    exact ⟨drop_duplicates_eq_spec dedupKey _, keepFirstAux_sublist _ _ _⟩
  · rw [if_neg h, if_neg h]
    exact ⟨rfl, List.Sublist.refl _⟩

/-- C3: `build_scholarship_text` is the newline-join of one
`"<Field>:\n<value>"` block per present-and-non-null recognized field in
the fixed field order (the spec-side `buildSpec`); it is invariant under
reordering of the record's fields; and a record with no recognized field
yields the empty string. -/
theorem build_scholarship_text_spec (r : Row) :
    build_scholarship_text r = buildSpec r ∧
    (∀ r' : Row, r.Perm r' → (r.map Prod.fst).Nodup →
      build_scholarship_text r' = build_scholarship_text r) ∧
    ((∀ f ∈ recognizedFields, (getVal r f).notnull = false) →
      build_scholarship_text r = "") := by
  refine ⟨?_, ?_, ?_⟩
  · simp only [buildSpec, recognizedFields, filterMap_if_cons, List.filterMap_nil,
      List.append_nil, build_scholarship_text, buildPart, List.append_assoc]
  · intro r' hperm hnd
    have hg : ∀ k, getVal r k = getVal r' k := fun k => getVal_perm r r' hperm hnd k
    simp only [build_scholarship_text, buildPart, hg]
  · intro hall
    have h1 := hall "Scholarship Name" (by simp [recognizedFields])
    have h2 := hall "Provider" (by simp [recognizedFields])
    have h3 := hall "Country" (by simp [recognizedFields])
    have h4 := hall "Eligibility" (by simp [recognizedFields])
    have h5 := hall "Benefits" (by simp [recognizedFields])
    have h6 := hall "Program" (by simp [recognizedFields])
    have h7 := hall "Deadline" (by simp [recognizedFields])
    have h8 := hall "Application Link" (by simp [recognizedFields])
    simp [build_scholarship_text, buildPart, h1, h2, h3, h4, h5, h6, h7, h8]
    rfl

/-- Witness for C3 at concrete records: a two-field record agrees with the
spec-side text, is insensitive to field order, and a record with no
recognized field gives the empty string. -/
theorem build_scholarship_text_spec_witness :
    build_scholarship_text [("Provider", Value.vstr "P"), ("Country", Value.vstr "C")] =
      buildSpec [("Provider", Value.vstr "P"), ("Country", Value.vstr "C")] ∧
    build_scholarship_text [("Country", Value.vstr "C"), ("Provider", Value.vstr "P")] =
      build_scholarship_text [("Provider", Value.vstr "P"), ("Country", Value.vstr "C")] ∧
    build_scholarship_text [("Other", Value.vstr "x")] = "" :=
  ⟨(build_scholarship_text_spec _).1,
   (build_scholarship_text_spec _).2.1 _ (by decide) (by decide),
   (build_scholarship_text_spec _).2.2 (by decide)⟩

/-- C4: with id assignment enabled, every record of the final output
carries `scholarship_id` equal to its zero-based position, so the ids are
exactly 0, 1, ..., n-1. -/
theorem scholarship_id_positions (opts : CleaningOptions) (f : Frame)
    (h : opts.add_scholarship_id = true) (i : Nat)
    (hi : i < (clean_and_deduplicate opts f).rows.length) :
    getVal ((clean_and_deduplicate opts f).rows.getD i []) "scholarship_id" =
      Value.vint i := by
  unfold clean_and_deduplicate idStage at hi ⊢
  rw [h] at hi ⊢
  simp only [if_true] at hi ⊢
  rw [assignIds_length] at hi
  simpa using getVal_assignIds _ 0 i hi

/-- Witness for C4: five input records with one duplicate by cleaned text
give four output records with ids 0,1,2,3 in first-occurrence order. -/
theorem scholarship_id_positions_witness :
    (clean_and_deduplicate optsAll frame5).rows.length = 4 ∧
    (clean_and_deduplicate optsAll frame5).rows.map (fun r => getVal r "Eligibility") =
      [Value.vstr "a", Value.vstr "b", Value.vstr "c", Value.vstr "d"] ∧
    getVal ((clean_and_deduplicate optsAll frame5).rows.getD 0 []) "scholarship_id" =
      Value.vint 0 ∧
    getVal ((clean_and_deduplicate optsAll frame5).rows.getD 3 []) "scholarship_id" =
      Value.vint 3 :=
  ⟨by decide, by decide,
   scholarship_id_positions optsAll frame5 rfl 0 (by decide),
   scholarship_id_positions optsAll frame5 rfl 3 (by decide)⟩

/-- C5: with text cleaning enabled, `scholarship_text_cleaned` is computed
by applying the cleaning function to `scholarship_text_raw` when that
column exists, else to `Eligibility` when it exists; with neither present
the frame is left unchanged (no cleaned field attached). -/
theorem clean_text_source_selection (opts : CleaningOptions) (f : Frame)
    (h : opts.clean_text = true) :
    ((cleanStage opts f).rows =
      if f.cols.contains "scholarship_text_raw" then
        f.rows.map (fun r =>
          setVal r "scholarship_text_cleaned"
            (Value.vstr (cleanValue (getVal r "scholarship_text_raw"))))
      else if f.cols.contains "Eligibility" then
        f.rows.map (fun r =>
          setVal r "scholarship_text_cleaned"
            (Value.vstr (cleanValue (getVal r "Eligibility"))))
      else f.rows) ∧
    (f.cols.contains "scholarship_text_raw" = false →
     f.cols.contains "Eligibility" = false → cleanStage opts f = f) := by
  by_cases h1 : "scholarship_text_raw" ∈ f.cols
  · constructor
    · simp [cleanStage, h, h1]
    · intro hc _
      have hb : f.cols.contains "scholarship_text_raw" = true := by simpa using h1
      rw [hb] at hc
      cases hc
  · by_cases h2 : "Eligibility" ∈ f.cols
    · constructor
      · simp [cleanStage, h, h1, h2]
      · intro _ hc
        have hb : f.cols.contains "Eligibility" = true := by simpa using h2
        rw [hb] at hc
        cases hc
    · constructor
      · simp [cleanStage, h, h1, h2]
      · intro _ _
        simp [cleanStage, h, h1, h2]

/-- Witness for C5: a frame with only an `Eligibility` column gets its
cleaned text from `Eligibility`, and a frame with neither source column is
left unchanged. -/
theorem clean_text_source_selection_witness :
    (cleanStage optsAll frameElig).rows =
      [[("Eligibility", Value.vstr "x"),
        ("scholarship_text_cleaned", Value.vstr "x")]] ∧
    cleanStage optsAll frameCountry = frameCountry := by
  constructor
  · have h := clean_text_source_selection optsAll frameElig rfl
    rw [h.1]
    decide
  · exact (clean_text_source_selection optsAll frameCountry rfl).2
      (by decide) (by decide)

/-- C1 counterexample: `clean_scholarship_text` is not idempotent.  On
`"123<b>45678"` the first pass only removes the HTML tag, leaving
`"123 45678"`, which the phone-number rule of a second pass deletes
entirely (its character class crosses the space), so cleaning the cleaned
text changes it. -/
theorem clean_not_idempotent :
    clean_scholarship_text (clean_scholarship_text "123<b>45678") ≠
      clean_scholarship_text "123<b>45678" ∧
    clean_scholarship_text "123<b>45678" = "123 45678" ∧
    clean_scholarship_text "123 45678" = "" := by
  refine ⟨?_, by decide, by decide⟩
  decide

/-- C1 (amended): idempotence fails in general (see the counterexample);
it does hold on text already in cleaned normal form in which no rule can
fire — words of printable-ASCII characters other than the trigger
characters `'@'`, digits, `':'`, `'.'`, `'<'`, `'&'`, separated by single
spaces with no edge whitespace — where cleaning is the identity.  Real
NFKD is the identity on printable ASCII, so on this family the model and
the program agree. -/
theorem clean_idempotent_on_normalized (s : String)
    (h : normalizedWords s.data = true) :
    clean_scholarship_text (clean_scholarship_text s) = clean_scholarship_text s := by
  simp only [clean_scholarship_text]
  rw [cleanChars_id_of_normalized s.data h, cleanChars_id_of_normalized s.data h]

/-- Witness for the amended C1 at `"hello world"`. -/
theorem clean_idempotent_on_normalized_witness :
    normalizedWords "hello world".data = true ∧
    clean_scholarship_text (clean_scholarship_text "hello world") =
      clean_scholarship_text "hello world" :=
  ⟨by decide, clean_idempotent_on_normalized "hello world" (by decide)⟩

/-- C6 counterexample: the input `"a@b.com x@ y"` contains an email-like
token (`a@b.com`, an `'@'` with non-whitespace on both sides — the shape
the email rule `\S+@\S+` targets), yet the cleaned output `"x@ y"` still
has a token containing `'@'`: the claim fails as stated because a trailing
`'@'` has no following non-whitespace character and never matches. -/
theorem email_at_counterexample :
    (tokens "a@b.com x@ y".data).any (fun t => hasInteriorAt t) = true ∧
    clean_scholarship_text "a@b.com x@ y" = "x@ y" ∧
    (tokens (clean_scholarship_text "a@b.com x@ y").data).any
      (fun t => decide ('@' ∈ t)) = true := by
  exact ⟨by decide, by decide, by decide⟩

/-- C6 (amended): the email rule removes exactly the tokens with an
interior `'@'` — after it runs no token has non-whitespace on both sides
of an `'@'` — while tokens with `'@'` only at their first or last
character may survive; on the spec's example the output contains no `'@'`
at all. -/
theorem email_tokens_no_interior_at :
    (∀ l : List Char, ∀ t ∈ tokens (emailSub l), hasInteriorAt t = false) ∧
    clean_scholarship_text "contact: a@b.com end" = "contact: end" :=
  ⟨fun l => tokens_emailSub l, by decide⟩

/-- Witness for the amended C6: the surviving token `"x@"` of the
counterexample input indeed has no interior `'@'`. -/
theorem email_tokens_no_interior_at_witness :
    hasInteriorAt "x@".data = false :=
  email_tokens_no_interior_at.1 "a@b.com x@ y".data "x@".data (by decide)

/-- C8: the first normalization step decomposes and never recomposes: on
any text containing the precomposed `'é'` (U+00E9) the NFKD stage yields
the base letter `'e'` followed by the combining acute accent (U+0301), and
no precomposed `'é'` survives the stage.  (`nfkdChar` models Python's
`unicodedata.normalize("NFKD", ·)` by a finite decomposition table.) -/
theorem nfkd_decomposes_only (l : List Char) :
    ('é' ∈ l → ∃ u v, nfkd l = u ++ 'e' :: '́' :: v) ∧ 'é' ∉ nfkd l := by
  induction l with
  | nil =>
    exact ⟨fun h => absurd h (List.not_mem_nil _), List.not_mem_nil _⟩
  | cons c cs ih =>
    have hceq : nfkd (c :: cs) = nfkdChar c ++ nfkd cs := rfl
    constructor
    · intro hmem
      rcases List.mem_cons.mp hmem with rfl | hcs
      · refine ⟨[], nfkd cs, ?_⟩
        rw [hceq, show nfkdChar 'é' = ['e', '́'] from by decide]
        rfl
      · obtain ⟨u, v, huv⟩ := ih.1 hcs
        exact ⟨nfkdChar c ++ u, v, by rw [hceq, huv, List.append_assoc]⟩
    · rw [hceq]
      intro hmem
      rcases List.mem_append.mp hmem with h1 | h2
      · revert h1
        unfold nfkdChar
        split_ifs with e1 e2 e3 e4 e5 e6 <;> simp_all
        exact fun h => e1 h.symm
      · exact ih.2 h2

/-- Witness for C8 at `"café"`: the NFKD stage emits `e` plus combining
acute, keeps no precomposed `é`, and the full cleaning of `"café"`
returns the decomposition-only form. -/
theorem nfkd_decomposes_only_witness :
    (∃ u v, nfkd "café".data = u ++ 'e' :: '́' :: v) ∧
    'é' ∉ nfkd "café".data ∧
    clean_scholarship_text "café" = "café" :=
  ⟨(nfkd_decomposes_only "café".data).1 (by decide),
   (nfkd_decomposes_only "café".data).2, by decide⟩

/-- C9: the click handler never mutates the loaded raw frame; the cleaned
frame is a derived copy stored in its own slot. -/
theorem raw_frame_unchanged (opts : CleaningOptions) (s : SessionState) :
    (apply_cleaning_click opts s).raw_scholarships_df = s.raw_scholarships_df := by
  rcases s with ⟨raw, cleaned⟩
  cases raw <;> rfl

/-- C10: every non-string cell value (null/NaN or number) cleans to the
empty string, so all records with non-textual cleaning sources share the
deduplication key `""`. -/
theorem nonstring_clean_empty (v w : Value) (hv : v.isStr = false) (hw : w.isStr = false) :
    cleanValue v = "" ∧ cleanValue v = cleanValue w := by
  cases v <;> cases w <;> simp_all [cleanValue, Value.isStr]

/-- Witness for C10 at a null and a numeric value. -/
theorem nonstring_clean_empty_witness :
    cleanValue Value.vnull = "" ∧ cleanValue Value.vnull = cleanValue (Value.vint 3) :=
  nonstring_clean_empty Value.vnull (Value.vint 3) rfl rfl

end Scholarship
